import Mathlib

/-!
Verification of the WIF (Weaving Information File) codec library.

Strings from the source are modelled as Lean `String`s, but all character
processing (lower-casing, trimming, splitting) is defined structurally over
`String.data` so every definition is executable and kernel-reducible.
`BTreeMap` is modelled as an association list whose construction keeps keys
strictly ascending (`btreeInsert`); `BTreeSet` is modelled as the strictly
ascending list of its elements (`NatSet`, maintained by `setInsert`).
-/

namespace Wiffy

/-- Association-list model of a `BTreeMap` with `Nat`-like keys
(`Treadle`, `Shaft`, `Warp`, `Weft` and `u32` are all `u32` newtypes). -/
abbrev Tbl (α : Type) := List (Nat × α)

/-- Lookup in a table, mirroring `BTreeMap::get`. -/
def tblGet (t : Tbl α) (k : Nat) : Option α :=
  match t with
  | [] => none
  | (k₂, v) :: rest => if k = k₂ then some v else tblGet rest k

/-- Ordered insert, mirroring `BTreeMap::insert`: keeps keys strictly
ascending and replaces the value of an existing key. -/
def btreeInsert (t : Tbl α) (k : Nat) (v : α) : Tbl α :=
  match t with
  | [] => [(k, v)]
  | (k₂, v₂) :: rest =>
    if k < k₂ then (k, v) :: (k₂, v₂) :: rest
    else if k = k₂ then (k, v) :: rest
    else (k₂, v₂) :: btreeInsert rest k v

/-- Build a `BTreeMap` from a sequence of inserts (any construction order). -/
def btreeFromList (l : List (Nat × α)) : Tbl α :=
  l.foldl (fun t p => btreeInsert t p.1 p.2) []

/-- ASCII lower-casing of one character, modelling what Rust
`str::to_lowercase` does on the ASCII section names and values the codec
compares against. -/
def lowerChar (c : Char) : Char :=
  if 65 ≤ c.toNat ∧ c.toNat ≤ 90 then Char.ofNat (c.toNat + 32) else c

/-- Model of `str::to_lowercase`. -/
def lowerStr (s : String) : String :=
  String.mk (s.data.map lowerChar)

/-- The apostrophe character, written via its code point. -/
def quoteChar : Char := Char.ofNat 39

/-- Whitespace test backing the model of `str::trim`. -/
def isWsChar (c : Char) : Bool :=
  c = ' ' ∨ c = Char.ofNat 9 ∨ c = Char.ofNat 10 ∨ c = Char.ofNat 13

/-- Model of `str::trim` on the character list of a string. -/
def trimChars (l : List Char) : List Char :=
  ((l.dropWhile isWsChar).reverse.dropWhile isWsChar).reverse

/-- Model of `str::split(',')` on the character list of a string: the empty
string yields one empty part, and every comma starts a new part. -/
def splitOnComma (l : List Char) : List (List Char) :=
  match l with
  | [] => [[]]
  | c :: rest =>
    let r := splitOnComma rest
    if c = ',' then [] :: r
    else
      match r with
      | h :: t => (c :: h) :: t
      | [] => [[c]]

/-- Digit-fold used by the `u32` decoder model. -/
def digitsToNat (l : List Char) : Nat :=
  l.foldl (fun a c => a * 10 + (c.toNat - 48)) 0

/-- Model of `str::parse::<u32>`: an optional leading `+`, then one or more
ASCII digits, rejecting values above `u32::MAX`.  `none` models the
`ParseIntError` result. -/
def parseU32Chars (l : List Char) : Option Nat :=
  let l₂ := match l with
    | '+' :: rest => rest
    | _ => l
  if l₂.isEmpty then none
  else if l₂.all (fun c => c.isDigit) then
    let n := digitsToNat l₂
    if n < 4294967296 then some n else none
  else none

/-- Rust `str::parse::<u32>` on a `String`. -/
def parseU32 (s : String) : Option Nat :=
  parseU32Chars s.data

/-- Sorted-duplicate-free-list model of a `BTreeSet<u32-newtype>`: the set is
its ascending element list. -/
abbrev NatSet := List Nat

/-- Ordered duplicate-free insert, mirroring `BTreeSet::insert`. -/
def setInsert (l : NatSet) (x : Nat) : NatSet :=
  match l with
  | [] => [x]
  | y :: rest =>
    if x < y then x :: y :: rest
    else if x = y then y :: rest
    else y :: setInsert rest x

/-- Rust `BTreeSet::extend`: insert every element of `tie` into `rv`. -/
def setExtend (rv : NatSet) (tie : NatSet) : NatSet :=
  tie.foldl setInsert rv

instance instDecEqExcept [DecidableEq ε] [DecidableEq α] : DecidableEq (Except ε α) := fun a b =>
  match a, b with
  | .ok x, .ok y =>
    match decEq x y with
    | isTrue h => isTrue (by rw [h])
    | isFalse h => isFalse (by intro hc; injection hc; contradiction)
  | .error x, .error y =>
    match decEq x y with
    | isTrue h => isTrue (by rw [h])
    | isFalse h => isFalse (by intro hc; injection hc; contradiction)
  | .ok _, .error _ => isFalse (by intro hc; cases hc)
  | .error _, .ok _ => isFalse (by intro hc; cases hc)

/-- The error enum `WifError`.  The payloads of the wrapped external parse
errors (`chrono::ParseError`, `ParseIntError`, `ParseFloatError`) are not
modelled, only which variant occurred. -/
inductive WifError where
  | MissingRequiredField (sec field : String)
  | FieldParseError (sec field : String) (err : WifError)
  | InvalidDate
  | InvalidNumber
  | InvalidFloat
  | ExpectedPair (saw : String)
  | ExpectedBool (saw : String)
  | MissingSection (sec : String)
  | CouldNotParseTableKey (sec key : String)
  | LiftPlanDoesNotMatchTreadling
  | ColorsMustBeThreeParts
deriving DecidableEq

/-- Rust `struct Color { red, green, blue: u32 }`. -/
structure Color where
  red : Nat
  green : Nat
  blue : Nat
deriving DecidableEq

/-- Rust `struct BaseColor { idx: u32, alt: Option<Color> }`. -/
structure BaseColor where
  idx : Nat
  alt : Option Color
deriving DecidableEq

/-- Rust `enum Symbol { Char(char), Quoted(char), Code(char) }`. -/
inductive Symbol where
  | Char (c : Char)
  | Quoted (c : Char)
  | Code (c : Char)
deriving DecidableEq

/-- Rust `enum WarpOrWeft { Warp, Weft }`. -/
inductive WarpOrWeft where
  | Warp
  | Weft
deriving DecidableEq

/-- Rust `impl WifParse for bool`, decode direction: case-insensitive
`true/on/yes/1` and `false/off/no/0`, anything else is `ExpectedBool`. -/
def boolParse (s : String) : Except WifError Bool :=
  let l := lowerStr s
  if l = "true" ∨ l = "on" ∨ l = "yes" ∨ l = "1" then .ok true
  else if l = "false" ∨ l = "off" ∨ l = "no" ∨ l = "0" then .ok false
  else .error (.ExpectedBool s)

/-- Rust `impl WifParse for bool`, encode direction: `bool::to_string`. -/
def boolUnparse (b : Bool) : Option String :=
  some (if b then "true" else "false")

/-- The `collect::<Result<Vec<u32>, ParseIntError>>` step of the `Color`
decoder: trim and integer-parse every comma-separated part, short-circuiting
on the first failure. -/
def parseParts : List (List Char) → Option (List Nat)
  | [] => some []
  | p :: rest =>
    match parseU32Chars (trimChars p) with
    | none => none
    | some n => (parseParts rest).map (fun l => n :: l)

/-- Rust `impl WifParse for Color`, decode direction: split on commas, trim and
integer-parse each part (integer failure is `InvalidNumber`), then require
exactly three parts (`ColorsMustBeThreeParts` otherwise). -/
def colorParse (s : String) : Except WifError Color :=
  match parseParts (splitOnComma s.data) with
  | none => .error .InvalidNumber
  | some [r, g, b] => .ok ⟨r, g, b⟩
  | some _ => .error .ColorsMustBeThreeParts

/-- Rust `impl WifParse for Symbol`, decode direction.  The outer `Option` models
panics: `none` is a panic (an `unwrap` failure), `some` is the ordinary
`Result` of the function.  A leading quote takes the second character
(`s.chars().nth(1).unwrap()`); a leading `#` decimal-parses the rest and
feeds it to `char::from_u32(..).unwrap()`; otherwise the first character is
taken literally (`s.chars().nth(0).unwrap()`). -/
def symbolParse (s : String) : Option (Except WifError Symbol) :=
  match s.data with
  | [] => none
  | c₀ :: rest =>
    if c₀ = quoteChar then
      match rest with
      | c :: _ => some (.ok (.Quoted c))
      | [] => none
    else if c₀ = '#' then
      match parseU32Chars rest with
      | none => some (.error .InvalidNumber)
      | some n =>
        if n < 55296 ∨ (57344 ≤ n ∧ n < 1114112) then
          some (.ok (.Code (Char.ofNat n)))
        else none
    else some (.ok (.Char c₀))

/-- One raw section of the `configparser::ini::Ini` map:
key (stored lower-cased) → optional raw value. -/
abbrev IniSec := List (String × Option String)

/-- The raw `Ini` map: section name (stored lower-cased) → section map. -/
abbrev Ini := List (String × IniSec)

/-- Association lookup with string keys (the hash-map lookups of the raw
map; iteration order of the raw maps is otherwise unspecified). -/
def strGet (m : List (String × α)) (k : String) : Option α :=
  match m with
  | [] => none
  | (k₂, v) :: rest => if k = k₂ then some v else strGet rest k

/-- Rust `ini.get_map_ref().get(&name.to_lowercase())`. -/
def iniGetSection (ini : Ini) (name : String) : Option IniSec :=
  strGet ini (lowerStr name)

/-- Rust `Ini::get(section, key)`: lower-case both names, then flatten the
optional stored value. -/
def iniGet (ini : Ini) (sec key : String) : Option String :=
  match iniGetSection ini sec with
  | none => none
  | some m =>
    match strGet m (lowerStr key) with
    | none => none
    | some v => v

/-- Rust `get_field::<T>`: absent is `Ok(None)`; a present value is decoded and a
decode failure is wrapped with `(section, field)` context
(`WifContext::add_context`). -/
def getField (p : String → Except WifError α) (ini : Ini) (sec field : String) :
    Except WifError (Option α) :=
  match iniGet ini sec field with
  | none => .ok none
  | some v =>
    match p v with
    | .ok a => .ok (some a)
    | .error e => .error (.FieldParseError sec field e)

/-- Rust `has_section`: read the boolean flag of the section out of `CONTENTS`,
defaulting to `false` when the flag is absent; a malformed flag is a hard
error (the `?`). -/
def has_section (ini : Ini) (name : String) : Except WifError Bool :=
  match getField boolParse ini "CONTENTS" name with
  | .ok o => .ok (o.getD false)
  | .error e => .error e

/-- The loop body accumulator of `parse_table`: entries with an absent value
are skipped; a key the identifier type cannot parse is
`CouldNotParseTableKey`; a value decode failure is wrapped with
`(section, key)` context; successes are inserted into the `BTreeMap`. -/
def parseTableGo (kp : String → Option Nat) (vp : String → Except WifError τ)
    (name : String) : IniSec → Tbl τ → Except WifError (Tbl τ)
  | [], rv => .ok rv
  | (_, none) :: rest, rv => parseTableGo kp vp name rest rv
  | (k, some v) :: rest, rv =>
    match kp k with
    | none => .error (.CouldNotParseTableKey name k)
    | some id =>
      match vp v with
      | .error e => .error (.FieldParseError name k e)
      | .ok t => parseTableGo kp vp name rest (btreeInsert rv id t)

/-- Rust `parse_table`: require the named section to exist in the raw map
(`MissingSection` otherwise), then fold the entries. -/
def parse_table (kp : String → Option Nat) (vp : String → Except WifError τ)
    (ini : Ini) (name : String) : Except WifError (Tbl τ) :=
  match iniGetSection ini name with
  | none => .error (.MissingSection name)
  | some entries => parseTableGo kp vp name entries []

/-- The `read_section!` macro of `parse`: consult `has_section` and invoke
the reader of the section only when the flag is true; otherwise the document
field is `None`. -/
def readGatedSection (reader : Ini → Except WifError α) (ini : Ini) (name : String) :
    Except WifError (Option α) :=
  match has_section ini name with
  | .error e => .error e
  | .ok false => .ok none
  | .ok true =>
    match reader ini with
    | .ok v => .ok (some v)
    | .error e => .error e

/-- Rust `chrono::NaiveDate`, modelled as a plain calendar triple. -/
structure NaiveDate where
  year : Int
  month : Nat
  day : Nat

/-- Rust `struct WifHeader`. -/
structure WifHeader where
  version : String
  date : NaiveDate
  developers : String
  source_program : String
  source_version : Option String

/-- Rust `struct ColorPalette`. -/
structure ColorPalette where
  entries : Nat
  range : Nat × Nat

/-- Rust `struct WarpSymbolPalette` (also used for the weft symbol palette). -/
structure WarpSymbolPalette where
  entries : Nat

/-- Rust `struct Text`. -/
structure Text where
  title : Option String
  author : Option String
  address : Option String
  email : Option String
  telephone : Option String
  fax : Option String

/-- Rust `struct Weaving`. -/
structure Weaving where
  shafts : Nat
  treadles : Nat
  rising_shed : Option Bool

/-- Rust `struct WarpS`. -/
structure WarpS where
  threads : Nat
  color : Option BaseColor
  symbol : Option String
  symbol_number : Option Nat
  units : Option String
  spacing : Option Float
  thickness : Option Float
  spacing_zoom : Option Nat
  thickness_zoom : Option Nat

/-- Rust `struct WeftS`. -/
structure WeftS where
  threads : Nat
  color : Option BaseColor
  symbol : Option String
  symbol_number : Option Nat
  units : Option String
  spacing : Option Float
  thickness : Option Float
  spacing_zoom : Option Nat
  thickness_zoom : Option Nat

/-- Rust `struct Wif`: the root document aggregate. -/
structure Wif where
  wif_header : WifHeader
  color_palette : Option ColorPalette
  warp_symbol_palette : Option WarpSymbolPalette
  weft_symbol_palette : Option WarpSymbolPalette
  text : Option Text
  weaving : Option Weaving
  warp : Option WarpS
  weft : Option WeftS
  color_table : Option (Tbl Color)
  notes : Option (Tbl String)
  tieup : Option (Tbl NatSet)
  warp_symbol_table : Option (Tbl String)
  weft_symbols_table : Option (Tbl String)
  threading : Option (Tbl NatSet)
  warp_thickness : Option (Tbl Float)
  warp_thickness_zoom : Option (Tbl Nat)
  warp_spacing : Option (Tbl Float)
  warp_spacing_zoom : Option (Tbl Nat)
  warp_colors : Option (Tbl Nat)
  warp_symbols : Option (Tbl Nat)
  treadling : Option (Tbl NatSet)
  liftplan : Option (Tbl NatSet)
  weft_thickness : Option (Tbl Float)
  weft_thickness_zoom : Option (Tbl Nat)
  weft_spacing : Option (Tbl Float)
  weft_spacing_zoom : Option (Tbl Nat)
  weft_colors : Option (Tbl Nat)
  weft_symbols : Option (Tbl Nat)

/-- Inner loop of `liftplan_from_threading_and_treadle`: fold the treadles
of one weft row, forcing `tieup?` on each iteration (so an absent tieup only
matters when the row has at least one treadle) and extending the accumulated
shaft set with the shafts tied to each treadle that the tieup knows. -/
def composeRowGo (tieup : Option (Tbl NatSet)) : List Nat → NatSet → Option NatSet
  | [], rv => some rv
  | t :: ts, rv =>
    match tieup with
    | none => none
    | some tu =>
      match tblGet tu t with
      | some tie => composeRowGo tieup ts (setExtend rv tie)
      | none => composeRowGo tieup ts rv

/-- Outer loop of `liftplan_from_threading_and_treadle`: walk the treadling
rows in ascending key order, inserting one composed shaft set per row. -/
def composeGo (tieup : Option (Tbl NatSet)) : Tbl NatSet → Option (Tbl NatSet)
  | [] => some []
  | (w, ts) :: rest =>
    match composeRowGo tieup ts [] with
    | none => none
    | some rv =>
      match composeGo tieup rest with
      | none => none
      | some lp => some ((w, rv) :: lp)

/-- Rust `liftplan_from_threading_and_treadle`: `None` when the treadling is
absent (`treadling?`), otherwise compose each row against the tieup. -/
def liftplan_from_threading_and_treadle (treadling tieup : Option (Tbl NatSet)) :
    Option (Tbl NatSet) :=
  match treadling with
  | none => none
  | some tr => composeGo tieup tr

/-- Rust `Wif::build_or_validate_liftplan`, with the `&mut self` mutation modelled
as returning the updated document. -/
def Wif.build_or_validate_liftplan (w : Wif) : Except WifError Wif :=
  match liftplan_from_threading_and_treadle w.treadling w.tieup, w.liftplan with
  | none, none => .ok w
  | none, some _ => .ok w
  | some lp, none => .ok { w with liftplan := some lp }
  | some nlp, some olp =>
    if nlp = olp then .ok w else .error .LiftPlanDoesNotMatchTreadling

/-- Rust `Wif::get_ct`: look a color index up in the shared color table. -/
def Wif.get_ct (w : Wif) (color_idx : Nat) : Option Color :=
  match w.color_table with
  | none => none
  | some ct => tblGet ct color_idx

/-- Rust `Wif::get_default_weft_color`: the base color declared on the WEFT
record, resolved through the shared color table. -/
def Wif.get_default_weft_color (w : Wif) : Option Color :=
  match w.weft with
  | none => none
  | some ws =>
    match ws.color with
    | none => none
    | some bc => w.get_ct bc.idx

/-- Rust `Wif::weft_color`: per-thread color index chain, falling back to the
declared base color. -/
def Wif.weft_color (w : Wif) (weft : Nat) : Option Color :=
  (((w.weft_colors.bind (fun wc => tblGet wc weft)).bind
      (fun idx => w.get_ct idx)).orElse
    (fun _ => w.get_default_weft_color))

/-- Rust `Wif::get_default_warp_color`. -/
def Wif.get_default_warp_color (w : Wif) : Option Color :=
  match w.warp with
  | none => none
  | some ws =>
    match ws.color with
    | none => none
    | some bc => w.get_ct bc.idx

/-- Rust `Wif::warp_color`. -/
def Wif.warp_color (w : Wif) (warp : Nat) : Option Color :=
  (((w.warp_colors.bind (fun wc => tblGet wc warp)).bind
      (fun idx => w.get_ct idx)).orElse
    (fun _ => w.get_default_warp_color))

/-- Rust `Wif::warp_or_weft`: `None` when either the liftplan or the threading is
absent; otherwise warp-dominant exactly when the raised shafts of the row
meet the threaded shafts of the column, weft-dominant in every other case (including
a missing row or column entry). -/
def Wif.warp_or_weft (w : Wif) (warp weft : Nat) : Option WarpOrWeft :=
  match w.liftplan with
  | none => none
  | some lp =>
    match w.threading with
    | none => none
    | some th =>
      match tblGet lp weft with
      | some shafts =>
        match tblGet th warp with
        | some thread_shafts =>
          if shafts.any (fun s => thread_shafts.contains s) then
            some .Warp
          else some .Weft
        | none => some .Weft
      | none => some .Weft

/-- Rust `Section::write` + `Section::write_table`: walk the entries of the table (a
`BTreeMap` iterates in ascending key order), encode each value, and emit
`key.to_string() = encoded` only when the encoding is non-absent. -/
def writeTable (u : α → Option String) (t : Tbl α) : List (String × String) :=
  t.filterMap (fun p =>
    match u p.2 with
    | none => none
    | some s => some (toString p.1, s))

/-! ### Helper lemmas -/

theorem parseParts_of_map_some {l : List (List Char)} {ns : List Nat}
    (h : l.map (fun p => parseU32Chars (trimChars p)) = ns.map some) :
    parseParts l = some ns := by
  induction l generalizing ns with
  | nil =>
    cases ns with
    | nil => rfl
    | cons n t => simp at h
  | cons p rest ih =>
    cases ns with
    | nil => simp at h
    | cons n t =>
      simp only [List.map_cons, List.cons.injEq] at h
      simp only [parseParts, h.1, ih h.2, Option.map_some']

theorem parseParts_of_mem_none {l : List (List Char)}
    (h : none ∈ l.map (fun p => parseU32Chars (trimChars p))) :
    parseParts l = none := by
  induction l with
  | nil => simp at h
  | cons p rest ih =>
    simp only [List.map_cons, List.mem_cons] at h
    rcases h with h | h
    · simp only [parseParts, ← h]
    · simp only [parseParts]
      cases hp : parseU32Chars (trimChars p) with
      | none => rfl
      | some n => simp only [ih h, Option.map_none']

/-! ### C2: codec round-trip law -/

/-- C2, counterexample: the claimed law `encode(decode(x)) = x` fails on the
bool codec: `"Yes"` decodes to `true` but `true` re-encodes to `"true"`,
which is not textually equal to `"Yes"`. -/
theorem c2_roundtrip_counterexample :
    boolParse "Yes" = .ok true ∧ boolUnparse true = some "true" ∧
      ("true" : String) ≠ "Yes" := by
  refine ⟨by decide, rfl, by decide⟩

/-- C2 (amended): the universal round-trip law fails because decoding is
permissive and encoding canonical.  For the bool codec: re-encoding any
successfully decoded value yields the canonical text, which itself decodes
back to the same value, and `encode(decode(x)) = x` holds exactly when `x`
is already canonical (`"true"` or `"false"`). -/
theorem c2_bool_roundtrip (x : String) (b : Bool) (h : boolParse x = .ok b) :
    boolParse (if b then "true" else "false") = .ok b
    ∧ (boolUnparse b = some x ↔
        ((b = true ∧ x = "true") ∨ (b = false ∧ x = "false"))) := by
  constructor
  · cases b <;> decide
  · constructor
    · intro h₂
      cases b
      · exact Or.inr ⟨rfl, (Option.some.inj h₂).symm⟩
      · exact Or.inl ⟨rfl, (Option.some.inj h₂).symm⟩
    · rintro (⟨hb, hx⟩ | ⟨hb, hx⟩) <;> subst hb <;> subst hx <;> rfl

/-- Witness for the amended C2 theorem at `x = "true"`. -/
theorem c2_bool_roundtrip_witness : boolUnparse true = some "true" :=
  (c2_bool_roundtrip "true" true (by decide)).2.mpr (Or.inl ⟨rfl, rfl⟩)

/-! ### C7: Color decoding -/

/-- C7, counterexample: `"1,2,x"` does not consist of three integer parts,
yet it fails with the integer-parse error, not with
`ColorsMustBeThreeParts`. -/
theorem c7_color_counterexample :
    colorParse "1,2,x" = .error .InvalidNumber ∧
      WifError.InvalidNumber ≠ WifError.ColorsMustBeThreeParts := by
  refine ⟨rfl, by decide⟩

/-- C7 (amended): color decoding splits on commas and trims each part.  If
every part parses as an integer and there are exactly three, the color with
those channels is returned; if every part parses but the count differs from
three, the result is the `ColorsMustBeThreeParts` error; if some part fails
integer parsing, the result is the integer-parse error instead. -/
theorem c7_color_decode (s : String) (r g b : Nat) (parts : List Nat) :
    ((splitOnComma s.data).map (fun p => parseU32Chars (trimChars p))
        = [some r, some g, some b] →
      colorParse s = .ok ⟨r, g, b⟩)
    ∧ ((splitOnComma s.data).map (fun p => parseU32Chars (trimChars p))
        = parts.map some →
      parts.length ≠ 3 → colorParse s = .error .ColorsMustBeThreeParts)
    ∧ (none ∈ (splitOnComma s.data).map (fun p => parseU32Chars (trimChars p)) →
      colorParse s = .error .InvalidNumber) := by
  refine ⟨?_, ?_, ?_⟩
  · intro h
    have hp : parseParts (splitOnComma s.data) = some [r, g, b] :=
      parseParts_of_map_some (by simpa using h)
    unfold colorParse
    rw [hp]
  · intro h hlen
    have hp : parseParts (splitOnComma s.data) = some parts :=
      parseParts_of_map_some h
    unfold colorParse
    rw [hp]
    match parts, hlen with
    | [], _ => rfl
    | [a], _ => rfl
    | [a, b₂], _ => rfl
    | a :: b₂ :: c :: d :: t, _ => rfl
    | [a, b₂, c], hlen => exact absurd rfl hlen
  · intro h
    unfold colorParse
    rw [parseParts_of_mem_none h]

/-- Witness for the amended C7 theorem at `s = "999, 0, 500"`. -/
theorem c7_color_decode_witness : colorParse "999, 0, 500" = .ok ⟨999, 0, 500⟩ :=
  (c7_color_decode "999, 0, 500" 999 0 500 []).1 (by decide)

/-! ### C10: Symbol decoding panics -/

/-- C10: Symbol decoding is not total.  In the model the outer `none` is a
panic.  The empty string panics on the first-character `unwrap`; the lone
quote panics on the second-character `unwrap`; and a `#`-prefixed decimal
that is not a valid Unicode scalar value (a surrogate, or above `0x10FFFF`)
panics on the `char::from_u32` `unwrap` instead of returning a typed
error. -/
theorem c10_symbol_panics :
    symbolParse (String.mk []) = none
    ∧ symbolParse (String.mk [quoteChar]) = none
    ∧ (∀ rest n, parseU32Chars rest = some n →
        ¬(n < 55296 ∨ (57344 ≤ n ∧ n < 1114112)) →
        symbolParse (String.mk ('#' :: rest)) = none) := by
  refine ⟨rfl, by decide, ?_⟩
  intro rest n h hinv
  simp only [symbolParse, if_true]
  rw [h]
  exact if_neg hinv

/-- Witness for the quantified part of C10 at input `"#55296"` (the first
surrogate code point). -/
theorem c10_symbol_panics_witness :
    symbolParse (String.mk ('#' :: "55296".data)) = none :=
  c10_symbol_panics.2.2 "55296".data 55296 (by decide) (by decide)

theorem any_contains_iff (a b : List Nat) :
    (a.any fun s => b.contains s) = true ↔ ∃ x, x ∈ a ∧ x ∈ b := by
  simp [List.any_eq_true]

/-- A concrete document with every optional sub-structure absent, used to
instantiate the theorems at concrete inputs. -/
def emptyWif : Wif where
  wif_header :=
    { version := "1.1", date := ⟨2020, 1, 1⟩, developers := "dev"
      source_program := "prog", source_version := none }
  color_palette := none
  warp_symbol_palette := none
  weft_symbol_palette := none
  text := none
  weaving := none
  warp := none
  weft := none
  color_table := none
  notes := none
  tieup := none
  warp_symbol_table := none
  weft_symbols_table := none
  threading := none
  warp_thickness := none
  warp_thickness_zoom := none
  warp_spacing := none
  warp_spacing_zoom := none
  warp_colors := none
  warp_symbols := none
  treadling := none
  liftplan := none
  weft_thickness := none
  weft_thickness_zoom := none
  weft_spacing := none
  weft_spacing_zoom := none
  weft_colors := none
  weft_symbols := none

/-! ### C3: presence gating -/

/-- C3: an optional section whose name is absent from CONTENTS, or whose
CONTENTS entry decodes to false, is never read — whatever reader would be
used and whatever else the raw text holds, the document field comes back
`None`.  A table section whose flag decodes to true but whose section is
missing from the raw map fails with `MissingSection` naming it. -/
theorem c3_presence_gating (ini : Ini) (name : String)
    (kp : String → Option Nat) (vp : String → Except WifError Bool) :
    (iniGet ini "CONTENTS" name = none →
      ∀ (α : Type) (reader : Ini → Except WifError α),
        readGatedSection reader ini name = .ok none)
    ∧ (∀ v, iniGet ini "CONTENTS" name = some v → boolParse v = .ok false →
      ∀ (α : Type) (reader : Ini → Except WifError α),
        readGatedSection reader ini name = .ok none)
    ∧ (∀ v, iniGet ini "CONTENTS" name = some v → boolParse v = .ok true →
      iniGetSection ini name = none →
      readGatedSection (fun i => parse_table kp vp i name) ini name
        = .error (.MissingSection name)) := by
  refine ⟨?_, ?_, ?_⟩
  · intro h α reader
    simp only [readGatedSection, has_section, getField, h]
    rfl
  · intro v h hb α reader
    simp only [readGatedSection, has_section, getField, h, hb]
    rfl
  · intro v h hb hsec
    simp only [readGatedSection, has_section, getField, parse_table, h, hb, hsec]
    rfl

/-- Witness for C3 at a raw map whose CONTENTS flags TIEUP as present while
the TIEUP section itself is missing. -/
theorem c3_presence_gating_witness :
    readGatedSection
        (fun i => parse_table parseU32 boolParse i "TIEUP")
        [("contents", [("tieup", some "yes")])] "TIEUP"
      = .error (.MissingSection "TIEUP") :=
  (c3_presence_gating [("contents", [("tieup", some "yes")])] "TIEUP"
      parseU32 boolParse).2.2 "yes" rfl (by decide) rfl

/-! ### C4: interlacement classification -/

/-- C4: with both the liftplan and the threading present, a cell is
warp-dominant exactly when the raised shafts of the row meet the threaded
shafts of the column and weft-dominant otherwise; a missing row or column entry
yields the weft-dominant default rather than a failure. -/
theorem c4_warp_or_weft (w : Wif) (lp th : Tbl NatSet) (warp weft : Nat)
    (hlp : w.liftplan = some lp) (hth : w.threading = some th) :
    (∀ shafts thread_shafts, tblGet lp weft = some shafts →
      tblGet th warp = some thread_shafts →
      w.warp_or_weft warp weft =
        if ∃ x, x ∈ shafts ∧ x ∈ thread_shafts then some .Warp else some .Weft)
    ∧ (tblGet lp weft = none → w.warp_or_weft warp weft = some .Weft)
    ∧ (∀ shafts, tblGet lp weft = some shafts → tblGet th warp = none →
      w.warp_or_weft warp weft = some .Weft) := by
  refine ⟨?_, ?_, ?_⟩
  · intro shafts thread_shafts hs ht
    simp only [Wif.warp_or_weft, hlp, hth, hs, ht]
    by_cases hc : ∃ x, x ∈ shafts ∧ x ∈ thread_shafts
    · rw [if_pos ((any_contains_iff _ _).mpr hc), if_pos hc]
    · rw [if_neg (fun hb => hc ((any_contains_iff _ _).mp hb)), if_neg hc]
  · intro hs
    simp only [Wif.warp_or_weft, hlp, hth, hs]
  · intro shafts hs ht
    simp only [Wif.warp_or_weft, hlp, hth, hs, ht]

/-- Witness for C4 on a document whose liftplan row 1 raises shafts {1,2}
and whose warp thread 1 is on shaft 2. -/
theorem c4_warp_or_weft_witness :
    Wif.warp_or_weft
        { emptyWif with liftplan := some [(1, [1, 2])], threading := some [(1, [2])] }
        1 1 = some .Warp := by
  have h := (c4_warp_or_weft
      { emptyWif with liftplan := some [(1, [1, 2])], threading := some [(1, [2])] }
      [(1, [1, 2])] [(1, [2])] 1 1 rfl rfl).1 [1, 2] [2] rfl rfl
  rw [h, if_pos ⟨2, by decide, by decide⟩]

/-! ### C6: per-thread color resolution -/

/-- C6: `warp_color`/`weft_color` return the shared-color-table entry for
the index found in the per-thread color table when both lookups hit;
whenever that chain misses anywhere (no per-thread table, no entry for the
thread, or the index absent from the shared table — the miss is not an
error) the query falls through to the base color declared on the
WARP/WEFT record resolved through the shared table; and when that is also
absent the query returns `none`. -/
theorem c6_color_resolution (w : Wif) (i idx : Nat) (c : Color) (tbl : Tbl Nat) :
    ((w.weft_colors = some tbl → tblGet tbl i = some idx → w.get_ct idx = some c →
      w.weft_color i = some c)
    ∧ ((w.weft_colors.bind (fun wc => tblGet wc i)).bind (fun j => w.get_ct j) = none →
      w.weft_color i = w.get_default_weft_color)
    ∧ (∀ ws bc,
      (w.weft_colors.bind (fun wc => tblGet wc i)).bind (fun j => w.get_ct j) = none →
      w.weft = some ws → ws.color = some bc → w.get_ct bc.idx = some c →
      w.weft_color i = some c)
    ∧ ((w.weft_colors.bind (fun wc => tblGet wc i)).bind (fun j => w.get_ct j) = none →
      w.get_default_weft_color = none → w.weft_color i = none))
    ∧ ((w.warp_colors = some tbl → tblGet tbl i = some idx → w.get_ct idx = some c →
      w.warp_color i = some c)
    ∧ ((w.warp_colors.bind (fun wc => tblGet wc i)).bind (fun j => w.get_ct j) = none →
      w.warp_color i = w.get_default_warp_color)
    ∧ (∀ ws bc,
      (w.warp_colors.bind (fun wc => tblGet wc i)).bind (fun j => w.get_ct j) = none →
      w.warp = some ws → ws.color = some bc → w.get_ct bc.idx = some c →
      w.warp_color i = some c)
    ∧ ((w.warp_colors.bind (fun wc => tblGet wc i)).bind (fun j => w.get_ct j) = none →
      w.get_default_warp_color = none → w.warp_color i = none)) := by
  constructor
  · refine ⟨?_, ?_, ?_, ?_⟩
    · intro h₁ h₂ h₃
      simp [Wif.weft_color, h₁, h₂, h₃, Option.orElse]
    · intro hn
      simp [Wif.weft_color, hn, Option.orElse]
    · intro ws bc hn hw hc hct
      simp [Wif.weft_color, hn, Option.orElse, Wif.get_default_weft_color, hw, hc, hct]
    · intro hn hd
      simp [Wif.weft_color, hn, hd, Option.orElse]
  · refine ⟨?_, ?_, ?_, ?_⟩
    · intro h₁ h₂ h₃
      simp [Wif.warp_color, h₁, h₂, h₃, Option.orElse]
    · intro hn
      simp [Wif.warp_color, hn, Option.orElse]
    · intro ws bc hn hw hc hct
      simp [Wif.warp_color, hn, Option.orElse, Wif.get_default_warp_color, hw, hc, hct]
    · intro hn hd
      simp [Wif.warp_color, hn, hd, Option.orElse]

/-- Witness for C6 on a document whose weft thread 1 has color index 4
pointing at a color table entry, applied to the per-thread-hit case. -/
theorem c6_color_resolution_witness :
    Wif.weft_color
        { emptyWif with
            weft_colors := some [(1, 4)]
            color_table := some [(4, ⟨999, 0, 500⟩)] }
        1 = some ⟨999, 0, 500⟩ :=
  (c6_color_resolution
      { emptyWif with
          weft_colors := some [(1, 4)]
          color_table := some [(4, ⟨999, 0, 500⟩)] }
      1 4 ⟨999, 0, 500⟩ [(1, 4)]).1.1 rfl rfl rfl

/-! ### C8: table-read error attribution -/

/-- An entry the `parse_table` loop passes over without failing: its value
is absent, or both its key and its value decode. -/
def entryOk (kp : String → Option Nat) (vp : String → Except WifError τ)
    (e : String × Option String) : Bool :=
  match e.2 with
  | none => true
  | some v =>
    (kp e.1).isSome &&
      (match vp v with
       | .ok _ => true
       | .error _ => false)

theorem parseTableGo_append_ok {kp : String → Option Nat}
    {vp : String → Except WifError τ} {name : String} {pre : IniSec}
    (h : ∀ e ∈ pre, entryOk kp vp e = true) (rv : Tbl τ) :
    ∃ rv₂, ∀ rest, parseTableGo kp vp name (pre ++ rest) rv
      = parseTableGo kp vp name rest rv₂ := by
  induction pre generalizing rv with
  | nil => exact ⟨rv, fun rest => rfl⟩
  | cons e pre ih =>
    obtain ⟨k, ov⟩ := e
    have he : entryOk kp vp (k, ov) = true := h _ (List.mem_cons_self _ _)
    have h₂ : ∀ e ∈ pre, entryOk kp vp e = true :=
      fun e hme => h e (List.mem_cons_of_mem _ hme)
    cases ov with
    | none =>
      obtain ⟨rv₂, hrv⟩ := ih h₂ rv
      exact ⟨rv₂, fun rest => hrv rest⟩
    | some v =>
      simp only [entryOk, Bool.and_eq_true] at he
      obtain ⟨hk, hv⟩ := he
      obtain ⟨id, hid⟩ := Option.isSome_iff_exists.mp hk
      cases hvp : vp v with
      | error e₂ => rw [hvp] at hv; exact absurd hv (by simp)
      | ok t =>
        obtain ⟨rv₂, hrv⟩ := ih h₂ (btreeInsert rv id t)
        refine ⟨rv₂, fun rest => ?_⟩
        show parseTableGo kp vp name ((k, some v) :: (pre ++ rest)) rv = _
        simp only [parseTableGo, hid, hvp]
        exact hrv rest

theorem parseTableGo_all_none {kp : String → Option Nat}
    {vp : String → Except WifError τ} {name : String} {entries : IniSec}
    (h : ∀ e ∈ entries, e.2 = none) (rv : Tbl τ) :
    parseTableGo kp vp name entries rv = .ok rv := by
  induction entries with
  | nil => rfl
  | cons e entries ih =>
    obtain ⟨k, ov⟩ := e
    have : ov = none := h _ (List.mem_cons_self _ _)
    subst this
    exact ih fun e hme => h e (List.mem_cons_of_mem _ hme)

/-- C8: a table entry whose key the identifier type cannot parse fails with
`CouldNotParseTableKey` carrying that key text and the section name (once
the entries before it pass); a value that fails to decode is wrapped with
`(section, key)` context; and entries whose value is absent are skipped
without error. -/
theorem c8_table_errors (kp : String → Option Nat) (vp : String → Except WifError τ)
    (ini : Ini) (name k v : String) (pre post : IniSec) :
    (iniGetSection ini name = some (pre ++ (k, some v) :: post) →
      (∀ e ∈ pre, entryOk kp vp e = true) → kp k = none →
      parse_table kp vp ini name = .error (.CouldNotParseTableKey name k))
    ∧ (∀ id e₂, iniGetSection ini name = some (pre ++ (k, some v) :: post) →
      (∀ e ∈ pre, entryOk kp vp e = true) → kp k = some id → vp v = .error e₂ →
      parse_table kp vp ini name = .error (.FieldParseError name k e₂))
    ∧ (∀ entries, iniGetSection ini name = some entries →
      (∀ e ∈ entries, e.2 = none) →
      parse_table kp vp ini name = .ok []) := by
  refine ⟨?_, ?_, ?_⟩
  · intro hsec hpre hk
    obtain ⟨rv₂, hrv⟩ := parseTableGo_append_ok hpre ([] : Tbl τ)
    have h₁ : parse_table kp vp ini name
        = parseTableGo kp vp name (pre ++ (k, some v) :: post) [] := by
      unfold parse_table; rw [hsec]
    rw [h₁, hrv ((k, some v) :: post)]
    simp only [parseTableGo, hk]
  · intro id e₂ hsec hpre hk hv
    obtain ⟨rv₂, hrv⟩ := parseTableGo_append_ok hpre ([] : Tbl τ)
    have h₁ : parse_table kp vp ini name
        = parseTableGo kp vp name (pre ++ (k, some v) :: post) [] := by
      unfold parse_table; rw [hsec]
    rw [h₁, hrv ((k, some v) :: post)]
    simp only [parseTableGo, hk, hv]
  · intro entries hsec hnone
    have h₁ : parse_table kp vp ini name = parseTableGo kp vp name entries [] := by
      unfold parse_table; rw [hsec]
    rw [h₁, parseTableGo_all_none hnone]

/-- Witness for C8 at a TIEUP section holding one good entry and one entry
with the unparseable key `"x"`. -/
theorem c8_table_errors_witness :
    parse_table parseU32 boolParse
        [("tieup", [("1", some "yes"), ("x", some "yes")])] "TIEUP"
      = .error (.CouldNotParseTableKey "TIEUP" "x") :=
  (c8_table_errors parseU32 boolParse
      [("tieup", [("1", some "yes"), ("x", some "yes")])]
      "TIEUP" "x" "yes" [("1", some "yes")] []).1 rfl (by decide) rfl

/-! ### C9: deterministic table writing -/

theorem mem_keys_btreeInsert {t : Tbl α} {k j : Nat} {v : α} :
    j ∈ (btreeInsert t k v).map Prod.fst ↔ j = k ∨ j ∈ t.map Prod.fst := by
  induction t with
  | nil => simp [btreeInsert]
  | cons p t ih =>
    obtain ⟨k₂, v₂⟩ := p
    simp only [btreeInsert]
    by_cases h₁ : k < k₂
    · simp [h₁]
    · by_cases h₂ : k = k₂
      · subst h₂; simp [h₁]
      · simp only [h₁, h₂, if_false, List.map_cons, List.mem_cons, ih]
        tauto

theorem sorted_keys_btreeInsert {t : Tbl α} {k : Nat} {v : α}
    (h : List.Sorted (· < ·) (t.map Prod.fst)) :
    List.Sorted (· < ·) ((btreeInsert t k v).map Prod.fst) := by
  induction t with
  | nil => simp [btreeInsert]
  | cons p t ih =>
    obtain ⟨k₂, v₂⟩ := p
    simp only [List.map_cons, List.sorted_cons] at h
    obtain ⟨hlt, hs⟩ := h
    simp only [btreeInsert]
    by_cases h₁ : k < k₂
    · simp only [h₁, if_true, List.map_cons, List.sorted_cons]
      refine ⟨?_, hlt, hs⟩
      intro b hb
      simp only [List.map_cons, List.mem_cons] at hb
      rcases hb with hb | hb
      · omega
      · exact lt_trans h₁ (hlt b hb)
    · by_cases h₂ : k = k₂
      · subst h₂
        rw [if_neg h₁, if_pos rfl]
        simp only [List.map_cons, List.sorted_cons]
        exact ⟨hlt, hs⟩
      · simp only [h₁, h₂, if_false, List.map_cons, List.sorted_cons]
        refine ⟨?_, ih hs⟩
        intro b hb
        rw [mem_keys_btreeInsert] at hb
        rcases hb with hb | hb
        · omega
        · exact hlt b hb

theorem sorted_keys_btreeFromList (l : List (Nat × α)) :
    List.Sorted (· < ·) ((btreeFromList l).map Prod.fst) := by
  suffices h : ∀ acc : Tbl α, List.Sorted (· < ·) (acc.map Prod.fst) →
      List.Sorted (· < ·) ((l.foldl (fun t p => btreeInsert t p.1 p.2) acc).map Prod.fst) by
    exact h [] (by simp)
  induction l with
  | nil => intro acc hacc; exact hacc
  | cons p l ih =>
    intro acc hacc
    exact ih (btreeInsert acc p.1 p.2) (sorted_keys_btreeInsert hacc)

theorem tblGet_mem {t : Tbl α} {k : Nat} {v : α} (h : tblGet t k = some v) :
    (k, v) ∈ t := by
  induction t with
  | nil => simp [tblGet] at h
  | cons p t ih =>
    obtain ⟨k₂, v₂⟩ := p
    by_cases hk : k = k₂
    · subst hk
      unfold tblGet at h
      rw [if_pos rfl] at h
      injection h with h
      subst h
      exact List.mem_cons_self _ _
    · simp only [tblGet, if_neg hk] at h
      exact List.mem_cons_of_mem _ (ih h)

theorem tblGet_eq_none {t : Tbl α} {k : Nat} (h : k ∉ t.map Prod.fst) :
    tblGet t k = none := by
  induction t with
  | nil => rfl
  | cons p t ih =>
    obtain ⟨k₂, v₂⟩ := p
    simp only [List.map_cons, List.mem_cons, not_or] at h
    simp only [tblGet, if_neg h.1]
    exact ih h.2

theorem tblGet_of_sorted_mem {t : Tbl α} {k : Nat} {v : α}
    (hs : List.Sorted (· < ·) (t.map Prod.fst)) (h : (k, v) ∈ t) :
    tblGet t k = some v := by
  induction t with
  | nil => simp at h
  | cons p t ih =>
    obtain ⟨k₂, v₂⟩ := p
    simp only [List.map_cons, List.sorted_cons] at hs
    rcases List.mem_cons.mp h with h | h
    · rw [Prod.mk.injEq] at h
      obtain ⟨h₁, h₂⟩ := h
      subst h₁; subst h₂
      simp [tblGet]
    · have hk : k ≠ k₂ := by
        have : k₂ < k := hs.1 k (List.mem_map.mpr ⟨(k, v), h, rfl⟩)
        omega
      simp only [tblGet, if_neg hk]
      exact ih hs.2 h

theorem writeTable_eq_fold {t : Tbl α} (u : α → Option String)
    (hs : List.Sorted (· < ·) (t.map Prod.fst)) :
    writeTable u t = (t.map Prod.fst).filterMap
      (fun k => ((tblGet t k).bind u).map (fun s => (toString k, s))) := by
  induction t with
  | nil => rfl
  | cons p t ih =>
    obtain ⟨k, v⟩ := p
    simp only [List.map_cons, List.sorted_cons] at hs
    obtain ⟨hlt, hs'⟩ := hs
    simp only [List.map_cons, List.filterMap_cons]
    have hhead : tblGet ((k, v) :: t) k = some v := by simp [tblGet]
    have htail : (t.map Prod.fst).filterMap
        (fun j => ((tblGet ((k, v) :: t) j).bind u).map (fun s => (toString j, s)))
        = (t.map Prod.fst).filterMap
        (fun j => ((tblGet t j).bind u).map (fun s => (toString j, s))) := by
      apply List.filterMap_congr
      intro j hj
      have : j ≠ k := by
        have := hlt j hj
        omega
      simp [tblGet, this]
    rw [hhead, htail, ← ih hs']
    simp only [Option.some_bind]
    cases huv : u v with
    | none => simp [writeTable, huv]
    | some s => simp [writeTable, huv]

/-- C9: writing a table built by any sequence of inserts emits its entries
in ascending key order: the key sequence of the built table is strictly
sorted, the emitted pair list equals the fold over the sorted key list
(encoding the value at each key and skipping the absent ones), and every emitted
pair comes from an entry whose value encoded non-absent. -/
theorem c9_write_table (l : List (Nat × α)) (u : α → Option String) :
    List.Sorted (· < ·) ((btreeFromList l).map Prod.fst)
    ∧ writeTable u (btreeFromList l)
        = ((btreeFromList l).map Prod.fst).filterMap
          (fun k => ((tblGet (btreeFromList l) k).bind u).map (fun s => (toString k, s)))
    ∧ (∀ q ∈ writeTable u (btreeFromList l),
        ∃ k v, (k, v) ∈ btreeFromList l ∧ u v = some q.2 ∧ q.1 = toString k) := by
  refine ⟨sorted_keys_btreeFromList l, writeTable_eq_fold u (sorted_keys_btreeFromList l), ?_⟩
  intro q hq
  simp only [writeTable, List.mem_filterMap] at hq
  obtain ⟨⟨k, v⟩, hmem, hf⟩ := hq
  cases huv : u v with
  | none => rw [huv] at hf; exact absurd hf (by simp)
  | some s =>
    rw [huv] at hf
    simp only [Option.some.injEq] at hf
    exact ⟨k, v, hmem, by rw [huv, ← hf], by rw [← hf]⟩

/-- Witness for C9: the table built by inserting key 2 then key 1 emits the
true-valued entry and only it. -/
theorem c9_write_table_witness :
    ∃ k v, (k, v) ∈ btreeFromList [(2, true), (1, false)] ∧
      (if v then some "y" else none) = some "y" ∧ "2" = toString k :=
  (c9_write_table [(2, true), (1, false)] (fun b => if b then some "y" else none)).2.2
    ("2", "y") (by decide)

/-! ### C1: liftplan composition and reconciliation -/

theorem mem_setInsert {l : NatSet} {x y : Nat} :
    y ∈ setInsert l x ↔ y = x ∨ y ∈ l := by
  induction l with
  | nil => simp [setInsert]
  | cons z rest ih =>
    simp only [setInsert]
    by_cases h₁ : x < z
    · rw [if_pos h₁]
      simp only [List.mem_cons]
    · by_cases h₂ : x = z
      · subst h₂
        rw [if_neg h₁, if_pos rfl]
        simp only [List.mem_cons]
        tauto
      · rw [if_neg h₁, if_neg h₂]
        simp only [List.mem_cons, ih]
        tauto

theorem sorted_setInsert {l : NatSet} {x : Nat} (h : List.Sorted (· < ·) l) :
    List.Sorted (· < ·) (setInsert l x) := by
  induction l with
  | nil => simp [setInsert]
  | cons z rest ih =>
    simp only [List.sorted_cons] at h
    obtain ⟨hlt, hs⟩ := h
    simp only [setInsert]
    by_cases h₁ : x < z
    · rw [if_pos h₁]
      simp only [List.sorted_cons]
      refine ⟨?_, hlt, hs⟩
      intro b hb
      rcases List.mem_cons.mp hb with hb | hb
      · omega
      · exact lt_trans h₁ (hlt b hb)
    · by_cases h₂ : x = z
      · subst h₂
        rw [if_neg h₁, if_pos rfl]
        simp only [List.sorted_cons]
        exact ⟨hlt, hs⟩
      · rw [if_neg h₁, if_neg h₂]
        simp only [List.sorted_cons]
        refine ⟨?_, ih hs⟩
        intro b hb
        rcases mem_setInsert.mp hb with hb | hb
        · omega
        · exact hlt b hb

theorem mem_setExtend {rv tie : NatSet} {y : Nat} :
    y ∈ setExtend rv tie ↔ y ∈ rv ∨ y ∈ tie := by
  induction tie generalizing rv with
  | nil => simp [setExtend]
  | cons t tie ih =>
    show y ∈ setExtend (setInsert rv t) tie ↔ _
    rw [ih]
    simp only [mem_setInsert, List.mem_cons]
    tauto

theorem sorted_setExtend {rv tie : NatSet} (h : List.Sorted (· < ·) rv) :
    List.Sorted (· < ·) (setExtend rv tie) := by
  induction tie generalizing rv with
  | nil => exact h
  | cons t tie ih => exact ih (sorted_setInsert h)

/-- The pure fold computed by `composeRowGo` once the tieup is known to be
present. -/
def rowFold (tu : Tbl NatSet) : List Nat → NatSet → NatSet
  | [], rv => rv
  | t :: ts, rv =>
    match tblGet tu t with
    | some tie => rowFold tu ts (setExtend rv tie)
    | none => rowFold tu ts rv

theorem composeRowGo_some (tu : Tbl NatSet) (ts : List Nat) (rv : NatSet) :
    composeRowGo (some tu) ts rv = some (rowFold tu ts rv) := by
  induction ts generalizing rv with
  | nil => rfl
  | cons t ts ih =>
    simp only [composeRowGo, rowFold]
    cases tblGet tu t with
    | some tie => exact ih (setExtend rv tie)
    | none => exact ih rv

theorem mem_rowFold {tu : Tbl NatSet} {ts : List Nat} {rv : NatSet} {y : Nat} :
    y ∈ rowFold tu ts rv ↔
      y ∈ rv ∨ ∃ t ∈ ts, ∃ us, tblGet tu t = some us ∧ y ∈ us := by
  induction ts generalizing rv with
  | nil => simp [rowFold]
  | cons t ts ih =>
    simp only [rowFold]
    cases h : tblGet tu t with
    | none =>
      rw [ih]
      simp only [List.mem_cons]
      constructor
      · rintro (hy | ⟨t₂, ht₂, us, hus, hyus⟩)
        · exact Or.inl hy
        · exact Or.inr ⟨t₂, Or.inr ht₂, us, hus, hyus⟩
      · rintro (hy | ⟨t₂, rfl | ht₂, us, hus, hyus⟩)
        · exact Or.inl hy
        · rw [h] at hus
          exact Option.noConfusion hus
        · exact Or.inr ⟨t₂, ht₂, us, hus, hyus⟩
    | some tie =>
      rw [ih]
      simp only [mem_setExtend, List.mem_cons]
      constructor
      · rintro ((hy | hy) | ⟨t₂, ht₂, us, hus, hyus⟩)
        · exact Or.inl hy
        · exact Or.inr ⟨t, Or.inl rfl, tie, h, hy⟩
        · exact Or.inr ⟨t₂, Or.inr ht₂, us, hus, hyus⟩
      · rintro (hy | ⟨t₂, rfl | ht₂, us, hus, hyus⟩)
        · exact Or.inl (Or.inl hy)
        · rw [h] at hus
          rw [← Option.some.inj hus] at hyus
          exact Or.inl (Or.inr hyus)
        · exact Or.inr ⟨t₂, ht₂, us, hus, hyus⟩

theorem sorted_rowFold {tu : Tbl NatSet} {ts : List Nat} {rv : NatSet}
    (h : List.Sorted (· < ·) rv) : List.Sorted (· < ·) (rowFold tu ts rv) := by
  induction ts generalizing rv with
  | nil => exact h
  | cons t ts ih =>
    simp only [rowFold]
    cases tblGet tu t with
    | some tie => exact ih (sorted_setExtend h)
    | none => exact ih h

theorem composeGo_some (tu : Tbl NatSet) (tr : Tbl NatSet) :
    composeGo (some tu) tr = some (tr.map (fun p => (p.1, rowFold tu p.2 []))) := by
  induction tr with
  | nil => rfl
  | cons p tr ih =>
    obtain ⟨w, ts⟩ := p
    simp only [composeGo, composeRowGo_some, ih, List.map_cons]

theorem tblGet_map_snd {l : Tbl β} (g : β → γ) (k : Nat) :
    tblGet (l.map (fun p => (p.1, g p.2))) k = Option.map g (tblGet l k) := by
  induction l with
  | nil => rfl
  | cons p l ih =>
    obtain ⟨k₂, v⟩ := p
    simp only [List.map_cons, tblGet]
    by_cases h : k = k₂
    · rw [if_pos h, if_pos h]
      rfl
    · rw [if_neg h, if_neg h]
      exact ih

theorem tblGet_rowmap (U : Tbl NatSet) (l : Tbl NatSet) (k : Nat) :
    tblGet (l.map (fun p => (p.1, rowFold U p.2 []))) k
      = Option.map (fun ts => rowFold U ts []) (tblGet l k) :=
  tblGet_map_snd (fun ts => rowFold U ts []) k

/-- Row-wise set agreement between two optional shaft rows. -/
def rowsMatch : Option NatSet → Option NatSet → Prop
  | none, none => True
  | some x, some y => ∀ s : Nat, s ∈ x ↔ s ∈ y
  | _, _ => False

theorem rowsMatch_refl (a : Option NatSet) : rowsMatch a a := by
  cases a with
  | none => trivial
  | some x => exact fun s => Iff.rfl

theorem natSet_ext {a b : NatSet} (ha : List.Sorted (· < ·) a)
    (hb : List.Sorted (· < ·) b) (h : ∀ x, x ∈ a ↔ x ∈ b) : a = b := by
  haveI : IsAntisymm Nat (· < ·) := ⟨fun x y hxy hyx => absurd hxy (by omega)⟩
  exact List.eq_of_perm_of_sorted
    ((List.perm_ext_iff_of_nodup ha.nodup hb.nodup).mpr h) ha hb

theorem tblGet_ext {l₁ l₂ : Tbl α}
    (h₁ : List.Sorted (· < ·) (l₁.map Prod.fst))
    (h₂ : List.Sorted (· < ·) (l₂.map Prod.fst))
    (h : ∀ k, tblGet l₁ k = tblGet l₂ k) : l₁ = l₂ := by
  induction l₁ generalizing l₂ with
  | nil =>
    cases l₂ with
    | nil => rfl
    | cons q t₂ =>
      obtain ⟨k₂, v₂⟩ := q
      have hq := h k₂
      unfold tblGet at hq
      rw [if_pos rfl] at hq
      exact Option.noConfusion hq
  | cons p t₁ ih =>
    obtain ⟨k₁, v₁⟩ := p
    cases l₂ with
    | nil =>
      have hq := h k₁
      unfold tblGet at hq
      rw [if_pos rfl] at hq
      exact Option.noConfusion hq
    | cons q t₂ =>
      obtain ⟨k₂, v₂⟩ := q
      simp only [List.map_cons, List.sorted_cons] at h₁ h₂
      obtain ⟨hlt₁, hs₁⟩ := h₁
      obtain ⟨hlt₂, hs₂⟩ := h₂
      have e₁ : tblGet ((k₂, v₂) :: t₂) k₁ = some v₁ := by
        rw [← h k₁]
        unfold tblGet
        rw [if_pos rfl]
      have e₂ : tblGet ((k₁, v₁) :: t₁) k₂ = some v₂ := by
        rw [h k₂]
        unfold tblGet
        rw [if_pos rfl]
      have hkk : k₁ = k₂ := by
        by_contra hne
        have m₁ : k₁ ∈ t₂.map Prod.fst := by
          have he := e₁
          unfold tblGet at he
          rw [if_neg hne] at he
          exact List.mem_map.mpr ⟨(k₁, v₁), tblGet_mem he, rfl⟩
        have m₂ : k₂ ∈ t₁.map Prod.fst := by
          have he := e₂
          unfold tblGet at he
          rw [if_neg (fun hx => hne hx.symm)] at he
          exact List.mem_map.mpr ⟨(k₂, v₂), tblGet_mem he, rfl⟩
        have hA := hlt₂ k₁ m₁
        have hB := hlt₁ k₂ m₂
        omega
      subst hkk
      have hvv : v₁ = v₂ := by
        unfold tblGet at e₂
        rw [if_pos rfl] at e₂
        exact Option.some.inj e₂
      subst hvv
      refine congrArg (List.cons (k₁, v₁)) (ih hs₁ hs₂ ?_)
      intro k
      by_cases hk : k = k₁
      · subst hk
        have n₁ : tblGet t₁ k = none :=
          tblGet_eq_none (fun hmem => absurd (hlt₁ k hmem) (lt_irrefl k))
        have n₂ : tblGet t₂ k = none :=
          tblGet_eq_none (fun hmem => absurd (hlt₂ k hmem) (lt_irrefl k))
        rw [n₁, n₂]
      · have hgk := h k
        unfold tblGet at hgk
        rw [if_neg hk, if_neg hk] at hgk
        exact hgk

/-- C1: composing a treadling with a tieup maps each weft row to exactly the
union of the shaft sets of the tieup over the treadles of the row (a treadle missing
from the tieup contributes nothing); during assembly the reconciliation
fails with `LiftPlanDoesNotMatchTreadling` when both sides are present and
disagree on some row, succeeds keeping the supplied liftplan when they
agree on every row, adopts the composed result when the liftplan is absent,
accepts a liftplan without a treadling as-is, and is a no-op when both
sides are absent. -/
theorem c1_liftplan_reconciliation (T U L : Tbl NatSet) (w : Wif) :
    ((liftplan_from_threading_and_treadle (some T) (some U)).isSome = true)
    ∧ (∀ LP, liftplan_from_threading_and_treadle (some T) (some U) = some LP →
        (∀ r, tblGet T r = none → tblGet LP r = none)
        ∧ (∀ r ts, tblGet T r = some ts →
            ∃ rv, tblGet LP r = some rv ∧
              ∀ x, x ∈ rv ↔ ∃ t ∈ ts, ∃ us, tblGet U t = some us ∧ x ∈ us))
    ∧ (∀ LP, w.treadling = some T → w.tieup = some U → w.liftplan = some L →
        liftplan_from_threading_and_treadle (some T) (some U) = some LP →
        (∃ r, ¬ rowsMatch (tblGet LP r) (tblGet L r)) →
        w.build_or_validate_liftplan = .error .LiftPlanDoesNotMatchTreadling)
    ∧ (∀ LP, (T.map Prod.fst).Sorted (· < ·) → (L.map Prod.fst).Sorted (· < ·) →
        (∀ p ∈ L, List.Sorted (· < ·) p.2) →
        w.treadling = some T → w.tieup = some U → w.liftplan = some L →
        liftplan_from_threading_and_treadle (some T) (some U) = some LP →
        (∀ r, rowsMatch (tblGet LP r) (tblGet L r)) →
        w.build_or_validate_liftplan = .ok w)
    ∧ (∀ LP, w.treadling = some T → w.tieup = some U → w.liftplan = none →
        liftplan_from_threading_and_treadle (some T) (some U) = some LP →
        w.build_or_validate_liftplan = .ok { w with liftplan := some LP })
    ∧ (w.treadling = none → w.liftplan = some L →
        w.build_or_validate_liftplan = .ok w)
    ∧ (w.treadling = none → w.liftplan = none →
        w.build_or_validate_liftplan = .ok w) := by
  have hcomp : liftplan_from_threading_and_treadle (some T) (some U)
      = some (T.map (fun p => (p.1, rowFold U p.2 []))) := by
    show composeGo (some U) T = _
    exact composeGo_some U T
  refine ⟨?_, ?_, ?_, ?_, ?_, ?_, ?_⟩
  · rw [hcomp]
    rfl
  · intro LP hLP
    rw [hcomp] at hLP
    have hLPeq := (Option.some.inj hLP).symm
    subst hLPeq
    constructor
    · intro r hr
      rw [tblGet_rowmap, hr]
      rfl
    · intro r ts hts
      refine ⟨rowFold U ts [], ?_, ?_⟩
      · rw [tblGet_rowmap, hts]
        rfl
      · intro x
        rw [mem_rowFold]
        simp only [List.not_mem_nil, false_or]
  · intro LP h₁ h₂ h₃ hLP hmm
    obtain ⟨r, hr⟩ := hmm
    have hne : LP ≠ L := by
      intro heq
      subst heq
      exact hr (rowsMatch_refl _)
    simp only [Wif.build_or_validate_liftplan, h₁, h₂, h₃, hLP]
    rw [if_neg hne]
  · intro LP hTs hLs hLrows h₁ h₂ h₃ hLP hmatch
    have hinj : T.map (fun p => (p.1, rowFold U p.2 [])) = LP :=
      Option.some.inj (hcomp.symm.trans hLP)
    have hLPkeys : List.Sorted (· < ·) (LP.map Prod.fst) := by
      rw [← hinj, List.map_map]
      exact hTs
    have hLProws : ∀ p ∈ LP, List.Sorted (· < ·) p.2 := by
      intro p hp
      rw [← hinj] at hp
      obtain ⟨q, _, rfl⟩ := List.mem_map.mp hp
      exact sorted_rowFold List.sorted_nil
    have hEq : LP = L := by
      apply tblGet_ext hLPkeys hLs
      intro r
      have hm := hmatch r
      cases hA : tblGet LP r with
      | none =>
        cases hB : tblGet L r with
        | none => rfl
        | some y =>
          rw [hA, hB] at hm
          exact (hm : False).elim
      | some x =>
        cases hB : tblGet L r with
        | none =>
          rw [hA, hB] at hm
          exact (hm : False).elim
        | some y =>
          rw [hA, hB] at hm
          have hx : List.Sorted (· < ·) x := hLProws (r, x) (tblGet_mem hA)
          have hy : List.Sorted (· < ·) y := hLrows (r, y) (tblGet_mem hB)
          rw [natSet_ext hx hy (hm : ∀ s : Nat, s ∈ x ↔ s ∈ y)]
    simp only [Wif.build_or_validate_liftplan, h₁, h₂, h₃, hLP]
    rw [if_pos hEq]
  · intro LP h₁ h₂ h₃ hLP
    simp only [Wif.build_or_validate_liftplan, h₁, h₂, h₃, hLP]
  · intro h₁ h₃
    simp only [Wif.build_or_validate_liftplan, liftplan_from_threading_and_treadle, h₁, h₃]
  · intro h₁ h₃
    simp only [Wif.build_or_validate_liftplan, liftplan_from_threading_and_treadle, h₁, h₃]

/-- Witness for C1: a document whose treadling row 1 presses treadle 1,
whose tieup ties treadle 1 to shafts {2,3}, and whose supplied liftplan
agrees, is accepted unchanged. -/
theorem c1_liftplan_reconciliation_witness :
    Wif.build_or_validate_liftplan
        { emptyWif with
            treadling := some [(1, [1])]
            tieup := some [(1, [2, 3])]
            liftplan := some [(1, [2, 3])] }
      = .ok { emptyWif with
            treadling := some [(1, [1])]
            tieup := some [(1, [2, 3])]
            liftplan := some [(1, [2, 3])] } :=
  (c1_liftplan_reconciliation [(1, [1])] [(1, [2, 3])] [(1, [2, 3])]
      { emptyWif with
          treadling := some [(1, [1])]
          tieup := some [(1, [2, 3])]
          liftplan := some [(1, [2, 3])] }).2.2.2.1
    [(1, [2, 3])] (by decide) (by decide) (by decide) rfl rfl rfl (by decide)
    (fun r => rowsMatch_refl _)

end Wiffy
